import Mathlib

/- Verification of the similarity-scoring engine of `src/app.py`.

The engine has two parts:

* `difflib.SequenceMatcher(None, x, y).ratio()` - the Python standard-library
  sequence matcher, invoked with `isjunk = None` and the default
  `autojunk = True`, applied to lists of domain strings.  It is embedded below
  by `flmCore` / `find_longest_match` / `matchTotal` / `ratio`, following the
  CPython implementation specialised to `isjunk = None`: the junk set `bjunk`
  is then empty, so only the `autojunk` popularity heuristic (`bpopular`)
  remains.  `find_longest_match` first picks, among the matching blocks all of
  whose `b`-side elements are outside `bpopular` (these are the blocks the
  `b2j`-driven inner loop can produce), the longest one, with ties broken by
  the smallest start in `a` and then the smallest start in `b`; the chosen
  block is then widened over arbitrary equal elements on both ends (the
  "extend by non-junk elements" loops; the two junk-extension loops never fire
  because `bjunk` is empty).  `ratio` is `2 * M / (len a + len b)` where `M`
  is the total size of the blocks produced by the `get_matching_blocks`
  recursion, and `1` when both inputs are empty.

* `get_keyword_serp_diffs` - the aggregation loop of `src/app.py` (lines
  126-143), embedded with exact rational arithmetic in place of IEEE floats:
  Python's `round(v, 2)` is modelled as round-half-to-even at two decimal
  places (`round2`) and `int` as truncation toward zero (`pyInt`).
-/

namespace SerpApp

variable {α : Type} [DecidableEq α]

/-- One element-wise comparison inside a candidate matching block: the tokens
at positions `i+t` of `a` and `j+t` of `b` exist, are equal, and the `b`-side
token is not excluded by the popularity heuristic (difflib keeps only
non-popular elements in `b2j`, so blocks found by the inner loop use only
non-popular `b` elements). -/
def blockElemOk (a b : List α) (pop : α → Bool) (i j t : Nat) : Bool :=
  match a[i + t]?, b[j + t]? with
  | some x, some y => decide (x = y) && !pop y
  | _, _ => false

/-- One element-wise comparison used by the widening loops of
`find_longest_match`: tokens at `i` in `a` and `j` in `b` exist and are equal
(popularity is irrelevant there, since with `isjunk = None` the `bjunk` set is
empty). -/
def extElemOk (a b : List α) (i j : Nat) : Bool :=
  match a[i]?, b[j]? with
  | some x, some y => decide (x = y)
  | _, _ => false

/-- `blockOk a b pop alo ahi blo bhi i j k`: `(i, j, k)` is a matching block
of size `k` inside the window `a[alo:ahi]`, `b[blo:bhi]` whose `b` side uses
only non-popular elements. -/
def blockOk (a b : List α) (pop : α → Bool) (alo ahi blo bhi i j k : Nat) : Bool :=
  decide (alo ≤ i) && decide (i + k ≤ ahi) && decide (blo ≤ j) && decide (j + k ≤ bhi) &&
    (List.range k).all (fun t => blockElemOk a b pop i j t)

/-- Some column `j` completes a block of size `k` in row `i`. -/
def rowOk (a b : List α) (pop : α → Bool) (alo ahi blo bhi k i : Nat) : Bool :=
  (List.range (bhi + 1)).any (fun j => blockOk a b pop alo ahi blo bhi i j k)

/-- Some block of size `k` exists in the window. -/
def hasBlockGE (a b : List α) (pop : α → Bool) (alo ahi blo bhi k : Nat) : Bool :=
  (List.range (ahi + 1)).any (fun i => rowOk a b pop alo ahi blo bhi k i)

/-- Size of the longest matching block the `b2j`-driven loop of
`find_longest_match` can find in the window (`0` when there is none). -/
def bestSize (a b : List α) (pop : α → Bool) (alo ahi blo bhi : Nat) : Nat :=
  Nat.findGreatest
    (fun k => (decide (1 ≤ k) && hasBlockGE a b pop alo ahi blo bhi k) = true)
    (min (ahi - alo) (bhi - blo))

/-- Start row in `a` of the selected block: difflib's inner loop updates its
best block in increasing order of the end row, so the winning block is the
one with the smallest start in `a` (and the `find?` over `List.range` picks
exactly the least such row). -/
def flmI (a b : List α) (pop : α → Bool) (alo ahi blo bhi : Nat) : Nat :=
  ((List.range (ahi + 1)).find?
    (fun i => rowOk a b pop alo ahi blo bhi (bestSize a b pop alo ahi blo bhi) i)).getD alo

/-- Start column in `b` of the selected block: among blocks of maximal size
starting at row `flmI`, the one with the smallest start in `b`. -/
def flmJ (a b : List α) (pop : α → Bool) (alo ahi blo bhi : Nat) : Nat :=
  ((List.range (bhi + 1)).find?
    (fun j => blockOk a b pop alo ahi blo bhi (flmI a b pop alo ahi blo bhi) j
      (bestSize a b pop alo ahi blo bhi))).getD blo

/-- The block selected by the main loop of `find_longest_match` before the
widening passes: the longest non-popular matching block, ties broken by the
smallest `i`, then the smallest `j`; `(alo, blo, 0)` when no block exists
(mirroring the initialisation `besti, bestj, bestsize = alo, blo, 0`). -/
def flmCore (a b : List α) (pop : α → Bool) (alo ahi blo bhi : Nat) : Nat × Nat × Nat :=
  if decide (1 ≤ bestSize a b pop alo ahi blo bhi) &&
      hasBlockGE a b pop alo ahi blo bhi (bestSize a b pop alo ahi blo bhi) then
    (flmI a b pop alo ahi blo bhi, flmJ a b pop alo ahi blo bhi,
      bestSize a b pop alo ahi blo bhi)
  else (alo, blo, 0)

/-- Number of steps of the backward widening loop of `find_longest_match`:
the longest run of equal elements immediately to the left of `a[i]` / `b[j]`,
stopping at `alo` / `blo`. -/
def extBack (a b : List α) (alo blo i j : Nat) : Nat :=
  Nat.findGreatest
    (fun d => ((List.range d).all (fun t => extElemOk a b (i - 1 - t) (j - 1 - t))) = true)
    (min (i - alo) (j - blo))

/-- Number of steps of the forward widening loop of `find_longest_match`:
the longest run of equal elements starting at `a[i+k]` / `b[j+k]`, stopping
at `ahi` / `bhi`. -/
def extFwd (a b : List α) (ahi bhi i j k : Nat) : Nat :=
  Nat.findGreatest
    (fun d => ((List.range d).all (fun t => extElemOk a b (i + k + t) (j + k + t))) = true)
    (min (ahi - (i + k)) (bhi - (j + k)))

/-- `difflib.SequenceMatcher.find_longest_match` with `isjunk = None`:
the block selected by the `b2j` loop, widened on both ends by the
"extend by non-junk elements" loops (the two junk-widening loops are dead
code when `bjunk` is empty). -/
def find_longest_match (a b : List α) (pop : α → Bool) (alo ahi blo bhi : Nat) :
    Nat × Nat × Nat :=
  match flmCore a b pop alo ahi blo bhi with
  | (i, j, k) =>
    (i - extBack a b alo blo i j, j - extBack a b alo blo i j,
      k + extBack a b alo blo i j + extFwd a b ahi bhi i j k)

/-- Total size of the blocks produced by the `get_matching_blocks` recursion
of difflib on the given window: take the longest match, recurse on the
sub-windows to its left and to its right, and sum the sizes.  `fuel` bounds
the recursion depth; the wrapper `matchTotal` passes `len a + len b + 1`,
which exceeds the depth of difflib's recursion (each level strictly shrinks
`(ahi - alo) + (bhi - blo)`). -/
def matchTotalF (a b : List α) (pop : α → Bool) :
    Nat → Nat → Nat → Nat → Nat → Nat
  | 0, _, _, _, _ => 0
  | fuel + 1, alo, ahi, blo, bhi =>
    let r := find_longest_match a b pop alo ahi blo bhi
    if r.2.2 = 0 then 0
    else
      matchTotalF a b pop fuel alo r.1 blo r.2.1 + r.2.2 +
        matchTotalF a b pop fuel (r.1 + r.2.2) ahi (r.2.1 + r.2.2) bhi

/-- `sum(size for (_, _, size) in sm.get_matching_blocks())` on the whole
sequences. -/
def matchTotal (a b : List α) (pop : α → Bool) : Nat :=
  matchTotalF a b pop (a.length + b.length + 1) 0 a.length 0 b.length

/-- difflib's `bpopular` set under `autojunk = True`: when `b` has at least
200 elements, the elements occurring more than `len b / 100 + 1` times in
`b`. -/
def bpopular (b : List α) : List α :=
  if 200 ≤ b.length then
    b.dedup.filter (fun x => decide (b.length / 100 + 1 < b.count x))
  else []

/-- `difflib.SequenceMatcher(None, a, b).ratio()`:
`2 * M / (len a + len b)` with `M = matchTotal`, and `1.0` when both inputs
are empty (difflib's `_calculate_ratio`). -/
def ratio (a b : List α) : ℚ :=
  if a.length + b.length = 0 then 1
  else 2 * (matchTotal a b (fun y => (bpopular b).contains y) : ℚ) /
    ((a.length : ℚ) + (b.length : ℚ))

/-- Modelled from the spec: the recursion of the Ratcliff/Obershelp measure
exactly as section 4.1 describes it - "find the longest contiguous block of
tokens common to both sequences (ties broken by earliest position in `a`,
then earliest in `b`); recursively repeat on the sub-sequences to the left
and to the right of the matched block; sum all matched-block lengths".
`flmCore` with the popularity test constantly `false` is precisely that
longest-common-block selection.  Same fuel convention as `matchTotalF`. -/
def specMatchTotalF (a b : List α) : Nat → Nat → Nat → Nat → Nat → Nat
  | 0, _, _, _, _ => 0
  | fuel + 1, alo, ahi, blo, bhi =>
    let r := flmCore a b (fun _ => false) alo ahi blo bhi
    if r.2.2 = 0 then 0
    else
      specMatchTotalF a b fuel alo r.1 blo r.2.1 + r.2.2 +
        specMatchTotalF a b fuel (r.1 + r.2.2) ahi (r.2.1 + r.2.2) bhi

/-- Modelled from the spec: total matched length of the spec's greedy
recursive longest-common-block algorithm over the whole sequences. -/
def specMatchTotal (a b : List α) : Nat :=
  specMatchTotalF a b (a.length + b.length + 1) 0 a.length 0 b.length

/-- Modelled from the spec (section 4.1): `1.0` when both sequences are
empty, `0.0` when exactly one is empty, and otherwise
`2 * matched_length / (len a + len b)` for the greedy recursive
longest-common-block algorithm. -/
def specRatio (a b : List α) : ℚ :=
  if a.length = 0 ∧ b.length = 0 then 1
  else if a.length = 0 ∨ b.length = 0 then 0
  else 2 * (specMatchTotal a b : ℚ) / ((a.length : ℚ) + (b.length : ℚ))

/-- Round-half-to-even to an integer, the rounding mode of Python's
`round`. -/
def roundHalfEven (q : ℚ) : Int :=
  if q - ⌊q⌋ < 1 / 2 then ⌊q⌋
  else if 1 / 2 < q - ⌊q⌋ then ⌊q⌋ + 1
  else if ⌊q⌋ % 2 = 0 then ⌊q⌋ else ⌊q⌋ + 1

/-- Python's `round(q, 2)` over exact rationals. -/
def round2 (q : ℚ) : ℚ := (roundHalfEven (q * 100) : ℚ) / 100

/-- Python's `int(q)`: truncation toward zero. -/
def pyInt (q : ℚ) : Int := if 0 ≤ q then ⌊q⌋ else ⌈q⌉

/-- The rational value appended to `keyword_diffs` for the sequence `x`
inside the loop of `get_keyword_serp_diffs`: the mean of `sm.ratio()` over
every sequence `y` of the batch with `x != y`, rounded to two decimals, and
`1` when that peer list is empty (the `except` branch of the
`sum(diffs)/len(diffs)` division). -/
def keywordDiff (serp_comp : List (List String)) (x : List String) : ℚ :=
  let diffs := (serp_comp.filter (fun y => decide (x ≠ y))).map (fun y => ratio x y)
  if diffs.length = 0 then 1 else round2 (diffs.sum / (diffs.length : ℚ))

/-- The final integer score for the sequence `x`: `int(keywordDiff * 100)`. -/
def keywordScore (serp_comp : List (List String)) (x : List String) : Int :=
  pyInt (keywordDiff serp_comp x * 100)

/-- `get_keyword_serp_diffs` of `src/app.py` (lines 126-143): one
`keyword_diffs` entry per element `x` of `serp_comp` (built by the nested
loop, with the value-inequality guard `if x != y`), then the list
comprehension `[int(x*100) for x in keyword_diffs]`. -/
def get_keyword_serp_diffs (serp_comp : List (List String)) : List Int :=
  (serp_comp.map (fun x => keywordDiff serp_comp x)).map (fun q => pyInt (q * 100))

/-- Modelled from the spec (section 4.2): for each index `i`, the peers are
`sequences[j]` for every index `j ≠ i` - value-equal duplicates are not
deduplicated and are compared as ordinary sequences; the mean of the ratios
is rounded to two decimals and converted through `floor(. * 100)`, with the
empty-peer-set fallback `1.0`. -/
def specScorePercentages (seqs : List (List String)) : List Int :=
  (List.range seqs.length).map (fun i =>
    let diffs := ((List.range seqs.length).filter (fun j => decide (j ≠ i))).map
      (fun j => ratio (seqs.getD i []) (seqs.getD j []))
    pyInt ((if diffs.length = 0 then (1 : ℚ)
            else round2 (diffs.sum / (diffs.length : ℚ))) * 100))

/-! Basic extraction lemmas for the block predicates. -/

theorem blockElemOk_iff {a b : List α} {pop : α → Bool} {i j t : Nat} :
    blockElemOk a b pop i j t = true ↔
      ∃ x, a[i + t]? = some x ∧ b[j + t]? = some x ∧ pop x = false := by
  cases ha : a[i + t]? with
  | none => simp [blockElemOk, ha]
  | some x =>
    cases hb : b[j + t]? with
    | none => simp [blockElemOk, ha, hb]
    | some y =>
      simp only [blockElemOk, ha, hb, Bool.and_eq_true, decide_eq_true_eq,
        Bool.not_eq_true', Option.some.injEq]
      constructor
      · rintro ⟨rfl, hp⟩
        exact ⟨x, rfl, rfl, hp⟩
      · rintro ⟨z, hz1, hz2, hp⟩
        subst hz1; subst hz2
        exact ⟨rfl, hp⟩

theorem extElemOk_iff {a b : List α} {i j : Nat} :
    extElemOk a b i j = true ↔ ∃ x, a[i]? = some x ∧ b[j]? = some x := by
  cases ha : a[i]? with
  | none => simp [extElemOk, ha]
  | some x =>
    cases hb : b[j]? with
    | none => simp [extElemOk, ha, hb]
    | some y =>
      simp only [extElemOk, ha, hb, decide_eq_true_eq, Option.some.injEq]
      constructor
      · rintro rfl; exact ⟨x, rfl, rfl⟩
      · rintro ⟨z, hz1, hz2⟩; subst hz1; subst hz2; rfl

theorem blockOk_iff {a b : List α} {pop : α → Bool} {alo ahi blo bhi i j k : Nat} :
    blockOk a b pop alo ahi blo bhi i j k = true ↔
      alo ≤ i ∧ i + k ≤ ahi ∧ blo ≤ j ∧ j + k ≤ bhi ∧
        ∀ t, t < k → blockElemOk a b pop i j t = true := by
  simp [blockOk, List.all_eq_true, List.mem_range, and_assoc]

theorem hasBlockGE_iff {a b : List α} {pop : α → Bool} {alo ahi blo bhi k : Nat} :
    hasBlockGE a b pop alo ahi blo bhi k = true ↔
      ∃ i j, blockOk a b pop alo ahi blo bhi i j k = true := by
  constructor
  · intro h
    rcases List.any_eq_true.mp h with ⟨i, _, hi⟩
    rcases List.any_eq_true.mp hi with ⟨j, _, hj⟩
    exact ⟨i, j, hj⟩
  · rintro ⟨i, j, hj⟩
    have hb := blockOk_iff.mp hj
    refine List.any_eq_true.mpr ⟨i, List.mem_range.mpr (by omega), ?_⟩
    exact List.any_eq_true.mpr ⟨j, List.mem_range.mpr (by omega), hj⟩

/-- The element found by `find?` (with a fallback default) satisfies the
searched property, as soon as some element of the list does. -/
theorem find?_getD_sat {l : List Nat} {p : Nat → Bool} (h : ∃ x, x ∈ l ∧ p x = true)
    (d : Nat) : p ((l.find? p).getD d) = true := by
  have hs : (l.find? p).isSome := List.find?_isSome.mpr (by simpa using h)
  rcases Option.isSome_iff_exists.mp hs with ⟨v, hv⟩
  rw [hv]
  exact List.find?_some hv

/-- Case analysis on the pre-widening block selection: either a block of
size at least 1 was selected (and no strictly larger block exists), or no
nonempty block exists in the window and the degenerate `(alo, blo, 0)` is
returned. -/
theorem flmCore_cases (a b : List α) (pop : α → Bool) (alo ahi blo bhi : Nat) :
    (1 ≤ (flmCore a b pop alo ahi blo bhi).2.2 ∧
      blockOk a b pop alo ahi blo bhi (flmCore a b pop alo ahi blo bhi).1
        (flmCore a b pop alo ahi blo bhi).2.1 (flmCore a b pop alo ahi blo bhi).2.2 = true) ∨
    (flmCore a b pop alo ahi blo bhi = (alo, blo, 0) ∧
      ∀ i j m, blockOk a b pop alo ahi blo bhi i j m = true → m = 0) := by
  by_cases hc : (decide (1 ≤ bestSize a b pop alo ahi blo bhi) &&
      hasBlockGE a b pop alo ahi blo bhi (bestSize a b pop alo ahi blo bhi)) = true
  · left
    have hres : flmCore a b pop alo ahi blo bhi =
        (flmI a b pop alo ahi blo bhi, flmJ a b pop alo ahi blo bhi,
          bestSize a b pop alo ahi blo bhi) := by
      unfold flmCore
      rw [if_pos hc]
    rcases Bool.and_eq_true_iff.mp hc with ⟨h1, h2⟩
    have h1' : 1 ≤ bestSize a b pop alo ahi blo bhi := of_decide_eq_true h1
    have hIrow : rowOk a b pop alo ahi blo bhi (bestSize a b pop alo ahi blo bhi)
        (flmI a b pop alo ahi blo bhi) = true := by
      unfold flmI
      apply find?_getD_sat
      simpa [hasBlockGE] using List.any_eq_true.mp h2
    have hJ : blockOk a b pop alo ahi blo bhi (flmI a b pop alo ahi blo bhi)
        (flmJ a b pop alo ahi blo bhi) (bestSize a b pop alo ahi blo bhi) = true := by
      unfold flmJ
      exact find?_getD_sat
        (p := fun j => blockOk a b pop alo ahi blo bhi (flmI a b pop alo ahi blo bhi) j
          (bestSize a b pop alo ahi blo bhi))
        (by simpa [rowOk] using List.any_eq_true.mp hIrow) blo
    rw [hres]
    exact ⟨h1', hJ⟩
  · right
    have hres : flmCore a b pop alo ahi blo bhi = (alo, blo, 0) := by
      unfold flmCore
      rw [if_neg hc]
    refine ⟨hres, ?_⟩
    intro i j m hm
    by_contra hm0
    have h1m : 1 ≤ m := Nat.one_le_iff_ne_zero.mpr hm0
    have hb := blockOk_iff.mp hm
    have hmle : m ≤ min (ahi - alo) (bhi - blo) := le_min (by omega) (by omega)
    have hge : hasBlockGE a b pop alo ahi blo bhi m = true := hasBlockGE_iff.mpr ⟨i, j, hm⟩
    have hP : (decide (1 ≤ m) && hasBlockGE a b pop alo ahi blo bhi m) = true := by
      simp [h1m, hge]
    have hPK : (decide (1 ≤ bestSize a b pop alo ahi blo bhi) &&
        hasBlockGE a b pop alo ahi blo bhi (bestSize a b pop alo ahi blo bhi)) = true := by
      unfold bestSize
      exact Nat.findGreatest_spec
        (P := fun k => (decide (1 ≤ k) && hasBlockGE a b pop alo ahi blo bhi k) = true) hmle hP
    exact hc hPK

/-- No block in the window is larger than the selected one. -/
theorem flmCore_max {a b : List α} {pop : α → Bool} {alo ahi blo bhi i j m : Nat}
    (hm : blockOk a b pop alo ahi blo bhi i j m = true) :
    m ≤ (flmCore a b pop alo ahi blo bhi).2.2 := by
  rcases flmCore_cases a b pop alo ahi blo bhi with ⟨_, _⟩ | ⟨_, hnone⟩
  · by_cases hm0 : m = 0
    · omega
    · have h1m : 1 ≤ m := Nat.one_le_iff_ne_zero.mpr hm0
      have hb := blockOk_iff.mp hm
      have hmle : m ≤ min (ahi - alo) (bhi - blo) := le_min (by omega) (by omega)
      have hP : (fun k => (decide (1 ≤ k) && hasBlockGE a b pop alo ahi blo bhi k) = true) m := by
        simp [h1m, hasBlockGE_iff.mpr ⟨i, j, hm⟩]
      have hle : m ≤ bestSize a b pop alo ahi blo bhi :=
        Nat.le_findGreatest
          (P := fun k => (decide (1 ≤ k) && hasBlockGE a b pop alo ahi blo bhi k) = true) hmle hP
      calc m ≤ bestSize a b pop alo ahi blo bhi := hle
        _ ≤ (flmCore a b pop alo ahi blo bhi).2.2 := by
          unfold flmCore
          by_cases hc : (decide (1 ≤ bestSize a b pop alo ahi blo bhi) &&
              hasBlockGE a b pop alo ahi blo bhi (bestSize a b pop alo ahi blo bhi)) = true
          · rw [if_pos hc]
          · exfalso
            have hPK : (decide (1 ≤ bestSize a b pop alo ahi blo bhi) &&
                hasBlockGE a b pop alo ahi blo bhi (bestSize a b pop alo ahi blo bhi)) = true := by
              unfold bestSize
              exact Nat.findGreatest_spec
                (P := fun k =>
                  (decide (1 ≤ k) && hasBlockGE a b pop alo ahi blo bhi k) = true) hmle hP
            exact hc hPK
  · have := hnone i j m hm
    omega

/-! Lemmas about the widening loops. -/

theorem extBack_le (a b : List α) (alo blo i j : Nat) :
    extBack a b alo blo i j ≤ min (i - alo) (j - blo) := by
  unfold extBack
  exact Nat.findGreatest_le _

theorem extFwd_le (a b : List α) (ahi bhi i j k : Nat) :
    extFwd a b ahi bhi i j k ≤ min (ahi - (i + k)) (bhi - (j + k)) := by
  unfold extFwd
  exact Nat.findGreatest_le _

theorem extBack_pos {a b : List α} {alo blo i j : Nat} (h : 1 ≤ extBack a b alo blo i j) :
    extElemOk a b (i - 1) (j - 1) = true ∧ alo + 1 ≤ i ∧ blo + 1 ≤ j := by
  have hle : extBack a b alo blo i j ≤ min (i - alo) (j - blo) := extBack_le a b alo blo i j
  have hP : ((List.range (extBack a b alo blo i j)).all
      (fun t => extElemOk a b (i - 1 - t) (j - 1 - t))) = true := by
    have heq : Nat.findGreatest
        (fun d => ((List.range d).all (fun t => extElemOk a b (i - 1 - t) (j - 1 - t))) = true)
        (min (i - alo) (j - blo)) = extBack a b alo blo i j := rfl
    exact (Nat.findGreatest_eq_iff.mp heq).2.1 (by omega)
  have h0 := List.all_eq_true.mp hP 0 (List.mem_range.mpr (by omega))
  have hmin : 1 ≤ min (i - alo) (j - blo) := by omega
  refine ⟨by simpa using h0, ?_, ?_⟩ <;> omega

theorem extFwd_pos {a b : List α} {ahi bhi i j k : Nat} (h : 1 ≤ extFwd a b ahi bhi i j k) :
    extElemOk a b (i + k) (j + k) = true ∧ i + k + 1 ≤ ahi ∧ j + k + 1 ≤ bhi := by
  have hle : extFwd a b ahi bhi i j k ≤ min (ahi - (i + k)) (bhi - (j + k)) :=
    extFwd_le a b ahi bhi i j k
  have hP : ((List.range (extFwd a b ahi bhi i j k)).all
      (fun t => extElemOk a b (i + k + t) (j + k + t))) = true := by
    have heq : Nat.findGreatest
        (fun d => ((List.range d).all (fun t => extElemOk a b (i + k + t) (j + k + t))) = true)
        (min (ahi - (i + k)) (bhi - (j + k))) = extFwd a b ahi bhi i j k := rfl
    exact (Nat.findGreatest_eq_iff.mp heq).2.1 (by omega)
  have h0 := List.all_eq_true.mp hP 0 (List.mem_range.mpr (by omega))
  refine ⟨by simpa using h0, ?_, ?_⟩ <;> omega

theorem find_longest_match_eq {a b : List α} {pop : α → Bool} {alo ahi blo bhi i j k : Nat}
    (h : flmCore a b pop alo ahi blo bhi = (i, j, k)) :
    find_longest_match a b pop alo ahi blo bhi =
      (i - extBack a b alo blo i j, j - extBack a b alo blo i j,
        k + extBack a b alo blo i j + extFwd a b ahi bhi i j k) := by
  unfold find_longest_match
  rw [h]

/-- Whenever `find_longest_match` returns a nonempty block, the block lies
inside the requested window. -/
theorem flm_bounds {a b : List α} {pop : α → Bool} {alo ahi blo bhi : Nat}
    (h : 1 ≤ (find_longest_match a b pop alo ahi blo bhi).2.2) :
    alo ≤ (find_longest_match a b pop alo ahi blo bhi).1 ∧
      (find_longest_match a b pop alo ahi blo bhi).1 +
        (find_longest_match a b pop alo ahi blo bhi).2.2 ≤ ahi ∧
      blo ≤ (find_longest_match a b pop alo ahi blo bhi).2.1 ∧
      (find_longest_match a b pop alo ahi blo bhi).2.1 +
        (find_longest_match a b pop alo ahi blo bhi).2.2 ≤ bhi := by
  rcases hcore : flmCore a b pop alo ahi blo bhi with ⟨I, J, K⟩
  rw [find_longest_match_eq hcore] at h ⊢
  have hdb := extBack_le a b alo blo I J
  have hdf := extFwd_le a b ahi bhi I J K
  rcases flmCore_cases a b pop alo ahi blo bhi with ⟨h1, hb⟩ | ⟨hz, _⟩
  · rw [hcore] at h1 hb
    have hbb := blockOk_iff.mp hb
    simp only [] at h1 hbb ⊢
    omega
  · rw [hcore] at hz
    have hI : I = alo := congrArg Prod.fst hz
    have hJ : J = blo := congrArg (fun p => p.2.1) hz
    have hK : K = 0 := congrArg (fun p => p.2.2) hz
    subst hI; subst hJ; subst hK
    simp only [] at h hdb hdf ⊢
    omega

/-! Size bounds for the matching-blocks recursion. -/

theorem matchTotalF_le_left (a b : List α) (pop : α → Bool) :
    ∀ fuel alo ahi blo bhi, matchTotalF a b pop fuel alo ahi blo bhi ≤ ahi - alo := by
  intro fuel
  induction fuel with
  | zero => intro alo ahi blo bhi; simp [matchTotalF]
  | succ n ih =>
    intro alo ahi blo bhi
    simp only [matchTotalF]
    by_cases hK : (find_longest_match a b pop alo ahi blo bhi).2.2 = 0
    · rw [if_pos hK]
      omega
    · rw [if_neg hK]
      have hb := flm_bounds
        (show 1 ≤ (find_longest_match a b pop alo ahi blo bhi).2.2 by omega)
      have hl := ih alo (find_longest_match a b pop alo ahi blo bhi).1 blo
        (find_longest_match a b pop alo ahi blo bhi).2.1
      have hr := ih ((find_longest_match a b pop alo ahi blo bhi).1 +
          (find_longest_match a b pop alo ahi blo bhi).2.2) ahi
        ((find_longest_match a b pop alo ahi blo bhi).2.1 +
          (find_longest_match a b pop alo ahi blo bhi).2.2) bhi
      omega

theorem matchTotalF_le_right (a b : List α) (pop : α → Bool) :
    ∀ fuel alo ahi blo bhi, matchTotalF a b pop fuel alo ahi blo bhi ≤ bhi - blo := by
  intro fuel
  induction fuel with
  | zero => intro alo ahi blo bhi; simp [matchTotalF]
  | succ n ih =>
    intro alo ahi blo bhi
    simp only [matchTotalF]
    by_cases hK : (find_longest_match a b pop alo ahi blo bhi).2.2 = 0
    · rw [if_pos hK]
      omega
    · rw [if_neg hK]
      have hb := flm_bounds
        (show 1 ≤ (find_longest_match a b pop alo ahi blo bhi).2.2 by omega)
      have hl := ih alo (find_longest_match a b pop alo ahi blo bhi).1 blo
        (find_longest_match a b pop alo ahi blo bhi).2.1
      have hr := ih ((find_longest_match a b pop alo ahi blo bhi).1 +
          (find_longest_match a b pop alo ahi blo bhi).2.2) ahi
        ((find_longest_match a b pop alo ahi blo bhi).2.1 +
          (find_longest_match a b pop alo ahi blo bhi).2.2) bhi
      omega

theorem matchTotal_le_left (a b : List α) (pop : α → Bool) :
    matchTotal a b pop ≤ a.length :=
  le_trans (matchTotalF_le_left a b pop _ 0 a.length 0 b.length) (by omega)

theorem matchTotal_le_right (a b : List α) (pop : α → Bool) :
    matchTotal a b pop ≤ b.length :=
  le_trans (matchTotalF_le_right a b pop _ 0 a.length 0 b.length) (by omega)

theorem matchTotal_left_nil (b : List α) (pop : α → Bool) :
    matchTotal ([] : List α) b pop = 0 :=
  Nat.le_zero.mp (le_trans (matchTotal_le_left _ _ _) (by simp))

theorem matchTotal_right_nil (a : List α) (pop : α → Bool) :
    matchTotal a ([] : List α) pop = 0 :=
  Nat.le_zero.mp (le_trans (matchTotal_le_right _ _ _) (by simp))

/-! When the popularity heuristic is inactive the widening loops can never
fire: the selected block is already maximal. -/

theorem blockOk_grow_left {a b : List α} {alo ahi blo bhi i j k : Nat}
    (hb : blockOk a b (fun _ => false) alo ahi blo bhi (i + 1) (j + 1) k = true)
    (he : extElemOk a b i j = true) (hi : alo ≤ i) (hj : blo ≤ j) :
    blockOk a b (fun _ => false) alo ahi blo bhi i j (k + 1) = true := by
  have hbb := blockOk_iff.mp hb
  refine blockOk_iff.mpr ⟨hi, by omega, hj, by omega, ?_⟩
  intro t ht
  cases t with
  | zero =>
    rcases extElemOk_iff.mp he with ⟨x, hx1, hx2⟩
    exact blockElemOk_iff.mpr ⟨x, by simpa using hx1, by simpa using hx2, rfl⟩
  | succ s =>
    have hs : s < k := by omega
    rcases blockElemOk_iff.mp (hbb.2.2.2.2 s hs) with ⟨x, hx1, hx2, _⟩
    refine blockElemOk_iff.mpr ⟨x, ?_, ?_, rfl⟩
    · have hidx : i + (s + 1) = i + 1 + s := by omega
      rw [hidx]; exact hx1
    · have hidx : j + (s + 1) = j + 1 + s := by omega
      rw [hidx]; exact hx2

theorem blockOk_grow_right {a b : List α} {alo ahi blo bhi i j k : Nat}
    (hb : blockOk a b (fun _ => false) alo ahi blo bhi i j k = true)
    (he : extElemOk a b (i + k) (j + k) = true) (hi : i + k + 1 ≤ ahi) (hj : j + k + 1 ≤ bhi) :
    blockOk a b (fun _ => false) alo ahi blo bhi i j (k + 1) = true := by
  have hbb := blockOk_iff.mp hb
  refine blockOk_iff.mpr ⟨hbb.1, by omega, hbb.2.2.1, by omega, ?_⟩
  intro t ht
  by_cases htk : t < k
  · exact hbb.2.2.2.2 t htk
  · have ht' : t = k := by omega
    subst ht'
    rcases extElemOk_iff.mp he with ⟨x, hx1, hx2⟩
    exact blockElemOk_iff.mpr ⟨x, hx1, hx2, rfl⟩

/-- With the popularity test constantly `false`, the widening passes do
nothing: `find_longest_match` is exactly the longest-common-block selection. -/
theorem flm_noext (a b : List α) (alo ahi blo bhi : Nat) :
    find_longest_match a b (fun _ => false) alo ahi blo bhi =
      flmCore a b (fun _ => false) alo ahi blo bhi := by
  rcases hcore : flmCore a b (fun _ => false) alo ahi blo bhi with ⟨I, J, K⟩
  rw [find_longest_match_eq hcore]
  rcases flmCore_cases a b (fun _ => false) alo ahi blo bhi with ⟨h1, hb⟩ | ⟨hz, hnone⟩
  · rw [hcore] at h1 hb
    simp only [] at h1 hb
    have hdb : extBack a b alo blo I J = 0 := by
      by_contra hne
      obtain ⟨he, hi1, hj1⟩ := extBack_pos (Nat.one_le_iff_ne_zero.mpr hne)
      have hb' : blockOk a b (fun _ => false) alo ahi blo bhi (I - 1 + 1) (J - 1 + 1) K = true := by
        have e1 : I - 1 + 1 = I := by omega
        have e2 : J - 1 + 1 = J := by omega
        rw [e1, e2]; exact hb
      have hgrow := blockOk_grow_left hb' he (by omega) (by omega)
      have := flmCore_max hgrow
      rw [hcore] at this
      simp only [] at this
      omega
    have hdf : extFwd a b ahi bhi I J K = 0 := by
      by_contra hne
      obtain ⟨he, hi1, hj1⟩ := extFwd_pos (Nat.one_le_iff_ne_zero.mpr hne)
      have hgrow := blockOk_grow_right hb he hi1 hj1
      have := flmCore_max hgrow
      rw [hcore] at this
      simp only [] at this
      omega
    rw [hdb, hdf]
    simp
  · rw [hcore] at hz
    have hI : I = alo := congrArg Prod.fst hz
    have hJ : J = blo := congrArg (fun p => p.2.1) hz
    have hK : K = 0 := congrArg (fun p => p.2.2) hz
    have hdb : extBack a b alo blo I J = 0 := by
      rw [hI, hJ]
      have h := extBack_le a b alo blo alo blo
      simpa using h
    have hdf : extFwd a b ahi bhi I J K = 0 := by
      by_contra hne
      obtain ⟨he, hi1, hj1⟩ := extFwd_pos (Nat.one_le_iff_ne_zero.mpr hne)
      have he' : extElemOk a b alo blo = true := by
        rw [hI, hJ, hK] at he
        simpa using he
      have hblk : blockOk a b (fun _ => false) alo ahi blo bhi alo blo 1 = true := by
        refine blockOk_iff.mpr ⟨le_refl _, by omega, le_refl _, by omega, ?_⟩
        intro t ht
        have ht' : t = 0 := by omega
        subst ht'
        rcases extElemOk_iff.mp he' with ⟨x, hx1, hx2⟩
        exact blockElemOk_iff.mpr ⟨x, by simpa using hx1, by simpa using hx2, rfl⟩
      have := hnone alo blo 1 hblk
      omega
    rw [hdb, hdf]
    simp

/-- The difflib matching-blocks total with the popularity heuristic disabled
coincides with the spec's recursive Ratcliff/Obershelp total. -/
theorem matchTotalF_spec (a b : List α) :
    ∀ fuel alo ahi blo bhi,
      matchTotalF a b (fun _ => false) fuel alo ahi blo bhi =
        specMatchTotalF a b fuel alo ahi blo bhi := by
  intro fuel
  induction fuel with
  | zero => intro alo ahi blo bhi; rfl
  | succ n ih =>
    intro alo ahi blo bhi
    simp only [matchTotalF, specMatchTotalF]
    rw [flm_noext]
    by_cases hK : (flmCore a b (fun _ => false) alo ahi blo bhi).2.2 = 0
    · rw [if_pos hK, if_pos hK]
    · rw [if_neg hK, if_neg hK, ih, ih]

theorem bpopular_short {b : List α} (h : b.length < 200) : bpopular b = [] := by
  unfold bpopular
  rw [if_neg (by omega)]

/-- Below the autojunk threshold, difflib's matching total is the spec's
matching total. -/
theorem matchTotal_eq_spec {a b : List α} (h : b.length < 200) :
    matchTotal a b (fun y => (bpopular b).contains y) = specMatchTotal a b := by
  have hp : (fun y => (bpopular b).contains y) = (fun _ : α => false) := by
    funext y
    rw [bpopular_short h]
    rfl
  rw [hp]
  unfold matchTotal specMatchTotal
  exact matchTotalF_spec a b _ 0 a.length 0 b.length

/-! Range and edge-case lemmas for `ratio`. -/

theorem ratio_nonneg (a b : List α) : 0 ≤ ratio a b := by
  unfold ratio
  split
  · norm_num
  · apply div_nonneg
    · positivity
    · positivity

theorem ratio_le_one (a b : List α) : ratio a b ≤ 1 := by
  unfold ratio
  split
  · exact le_refl 1
  · rename_i h
    have h1 := matchTotal_le_left a b (fun y => (bpopular b).contains y)
    have h2 := matchTotal_le_right a b (fun y => (bpopular b).contains y)
    have hn : 2 * matchTotal a b (fun y => (bpopular b).contains y) ≤ a.length + b.length := by
      omega
    have hpos : (0 : ℚ) < (a.length : ℚ) + (b.length : ℚ) := by
      have hx : 0 < a.length + b.length := by omega
      exact_mod_cast hx
    rw [div_le_one hpos]
    exact_mod_cast hn

theorem ratio_nil_both : ratio ([] : List α) ([] : List α) = 1 := rfl

theorem ratio_nil_left {b : List α} (hb : b ≠ []) : ratio ([] : List α) b = 0 := by
  have hc : ¬(([] : List α).length + b.length = 0) := by
    simpa [List.length_eq_zero] using hb
  rw [ratio, if_neg hc, matchTotal_left_nil]
  simp

theorem ratio_nil_right {a : List α} (ha : a ≠ []) : ratio a ([] : List α) = 0 := by
  have hc : ¬(a.length + ([] : List α).length = 0) := by
    simpa [List.length_eq_zero] using ha
  rw [ratio, if_neg hc]
  rw [matchTotal_right_nil]
  simp

/-- If the two sequences share no token, `find_longest_match` finds nothing. -/
theorem flm_k_zero_of_disjoint {a b : List α} {pop : α → Bool} (hd : ∀ x, x ∈ a → x ∉ b)
    (alo ahi blo bhi : Nat) :
    (find_longest_match a b pop alo ahi blo bhi).2.2 = 0 := by
  rcases flmCore_cases a b pop alo ahi blo bhi with ⟨h1, hb⟩ | ⟨hz, hnone⟩
  · exfalso
    have hbb := blockOk_iff.mp hb
    rcases blockElemOk_iff.mp (hbb.2.2.2.2 0 (by omega)) with ⟨x, hx1, hx2, _⟩
    exact hd x (List.getElem?_mem hx1) (List.getElem?_mem hx2)
  · rw [find_longest_match_eq hz]
    simp only []
    have hdb : extBack a b alo blo alo blo = 0 := by
      simpa using extBack_le a b alo blo alo blo
    have hdf : extFwd a b ahi bhi alo blo 0 = 0 := by
      by_contra hne
      obtain ⟨he, _, _⟩ := extFwd_pos (Nat.one_le_iff_ne_zero.mpr hne)
      rcases extElemOk_iff.mp (by simpa using he) with ⟨x, hx1, hx2⟩
      exact hd x (List.getElem?_mem hx1) (List.getElem?_mem hx2)
    omega

theorem matchTotalF_disjoint {a b : List α} {pop : α → Bool} (hd : ∀ x, x ∈ a → x ∉ b)
    (fuel alo ahi blo bhi : Nat) :
    matchTotalF a b pop fuel alo ahi blo bhi = 0 := by
  cases fuel with
  | zero => rfl
  | succ n =>
    simp only [matchTotalF]
    rw [if_pos (flm_k_zero_of_disjoint hd alo ahi blo bhi)]

theorem ratio_disjoint {a b : List α} (hd : ∀ x, x ∈ a → x ∉ b)
    (h : a.length + b.length ≠ 0) : ratio a b = 0 := by
  rw [ratio, if_neg h]
  unfold matchTotal
  rw [matchTotalF_disjoint hd]
  simp

/-! Rounding and aggregation lemmas. -/

theorem roundHalfEven_nonneg {q : ℚ} (h : 0 ≤ q) : 0 ≤ roundHalfEven q := by
  unfold roundHalfEven
  have hf : 0 ≤ ⌊q⌋ := Int.floor_nonneg.mpr h
  split_ifs <;> omega

theorem roundHalfEven_le {q : ℚ} {n : ℤ} (h : q ≤ (n : ℚ)) : roundHalfEven q ≤ n := by
  unfold roundHalfEven
  have hf : ⌊q⌋ ≤ n := by
    have := Int.floor_le_floor h
    simpa using this
  have hfq : (⌊q⌋ : ℚ) ≤ q := Int.floor_le q
  split_ifs with h1 h2 h3
  · exact hf
  · have hlt : (⌊q⌋ : ℚ) + 1 / 2 < (n : ℚ) := by linarith
    have : (⌊q⌋ : ℚ) < (n : ℚ) := by linarith
    have : ⌊q⌋ < n := by exact_mod_cast this
    omega
  · exact hf
  · have hq : q - (⌊q⌋ : ℚ) = 1 / 2 := le_antisymm (not_lt.mp h2) (not_lt.mp h1)
    have hlt : (⌊q⌋ : ℚ) < (n : ℚ) := by linarith
    have : ⌊q⌋ < n := by exact_mod_cast hlt
    omega

theorem round2_nonneg {q : ℚ} (h : 0 ≤ q) : 0 ≤ round2 q := by
  unfold round2
  apply div_nonneg _ (by norm_num)
  have := roundHalfEven_nonneg (q := q * 100) (by positivity)
  exact_mod_cast this

theorem round2_le_one {q : ℚ} (h : q ≤ 1) : round2 q ≤ 1 := by
  unfold round2
  rw [div_le_one (by norm_num)]
  have h100 : q * 100 ≤ ((100 : ℤ) : ℚ) := by push_cast; linarith
  have := roundHalfEven_le h100
  exact_mod_cast this

theorem pyInt_eq_floor {q : ℚ} (h : 0 ≤ q) : pyInt q = ⌊q⌋ := if_pos h

theorem sum_bounds (l : List ℚ) (h : ∀ x ∈ l, 0 ≤ x ∧ x ≤ 1) :
    0 ≤ l.sum ∧ l.sum ≤ (l.length : ℚ) := by
  induction l with
  | nil => simp
  | cons x xs ih =>
    have hx := h x (by simp)
    have hxs := ih (fun y hy => h y (by simp [hy]))
    simp only [List.sum_cons, List.length_cons]
    push_cast
    constructor <;> linarith [hx.1, hx.2, hxs.1, hxs.2]

theorem keywordDiff_bounds (l : List (List String)) (x : List String) :
    0 ≤ keywordDiff l x ∧ keywordDiff l x ≤ 1 := by
  unfold keywordDiff
  set diffs := (l.filter (fun y => decide (x ≠ y))).map (fun y => ratio x y) with hd
  by_cases h0 : diffs.length = 0
  · rw [if_pos h0]
    norm_num
  · rw [if_neg h0]
    have hb : ∀ q ∈ diffs, 0 ≤ q ∧ q ≤ 1 := by
      intro q hq
      rw [hd] at hq
      rcases List.mem_map.mp hq with ⟨y, _, rfl⟩
      exact ⟨ratio_nonneg x y, ratio_le_one x y⟩
    have hs := sum_bounds diffs hb
    have hlen : (0 : ℚ) < (diffs.length : ℚ) := by
      have : 0 < diffs.length := Nat.pos_of_ne_zero h0
      exact_mod_cast this
    constructor
    · exact round2_nonneg (div_nonneg hs.1 (le_of_lt hlen))
    · exact round2_le_one (by rw [div_le_one hlen]; exact hs.2)

theorem keywordScore_bounds (l : List (List String)) (x : List String) :
    0 ≤ keywordScore l x ∧ keywordScore l x ≤ 100 := by
  unfold keywordScore
  obtain ⟨h0, h1⟩ := keywordDiff_bounds l x
  have hq0 : 0 ≤ keywordDiff l x * 100 := by positivity
  rw [pyInt_eq_floor hq0]
  constructor
  · exact Int.le_floor.mpr (by exact_mod_cast hq0)
  · have hle : keywordDiff l x * 100 ≤ ((100 : ℤ) : ℚ) := by push_cast; linarith
    have := Int.floor_le_floor hle
    simpa using this

theorem gksd_eq_map (l : List (List String)) :
    get_keyword_serp_diffs l = l.map (fun x => keywordScore l x) := by
  unfold get_keyword_serp_diffs keywordScore
  rw [List.map_map]
  rfl

theorem gksd_getElem? (l : List (List String)) (i : Nat) :
    (get_keyword_serp_diffs l)[i]? = (l[i]?).map (fun x => keywordScore l x) := by
  rw [gksd_eq_map, List.getElem?_map]

theorem keywordDiff_cons_self (l : List (List String)) (x : List String) :
    keywordDiff (x :: l) x = keywordDiff l x := by
  unfold keywordDiff
  rw [List.filter_cons_of_neg]
  simp

theorem keywordScore_cons_self (l : List (List String)) (x : List String) :
    keywordScore (x :: l) x = keywordScore l x := by
  unfold keywordScore
  rw [keywordDiff_cons_self]

/-! Concrete evaluations used by the claim counterexamples and witnesses. -/

theorem round2_zero : round2 0 = 0 := by
  unfold round2 roundHalfEven
  norm_num

theorem round2_half : round2 (1 / 2) = 1 / 2 := by
  unfold round2 roundHalfEven
  norm_num

theorem ratio_aa : ratio (["a"] : List String) ["a"] = 1 := by
  have hm : matchTotal (["a"] : List String) ["a"]
      (fun y => (bpopular (["a"] : List String)).contains y) = 1 := rfl
  rw [ratio, if_neg (by simp), hm]
  norm_num

theorem ratio_ab : ratio (["a"] : List String) ["b"] = 0 := by
  apply ratio_disjoint
  · intro x hx
    simp only [List.mem_singleton] at hx
    subst hx
    simp
  · simp

theorem ratio_ba : ratio (["b"] : List String) ["a"] = 0 := by
  apply ratio_disjoint
  · intro x hx
    simp only [List.mem_singleton] at hx
    subst hx
    simp
  · simp

theorem kscore_a : keywordScore [["a"], ["a"], ["b"]] ["a"] = 0 := by
  unfold keywordScore keywordDiff
  have hf : ([["a"], ["a"], ["b"]] : List (List String)).filter
      (fun y => decide ((["a"] : List String) ≠ y)) = [["b"]] := rfl
  rw [hf]
  simp only [List.map_cons, List.map_nil, ratio_ab]
  norm_num [List.sum_cons, List.sum_nil, round2_zero, pyInt]

theorem kscore_b : keywordScore [["a"], ["a"], ["b"]] ["b"] = 0 := by
  unfold keywordScore keywordDiff
  have hf : ([["a"], ["a"], ["b"]] : List (List String)).filter
      (fun y => decide ((["b"] : List String) ≠ y)) = [["a"], ["a"]] := rfl
  rw [hf]
  simp only [List.map_cons, List.map_nil, ratio_ba]
  norm_num [List.sum_cons, List.sum_nil, round2_zero, pyInt]

theorem gksd_singleton (s : List String) : get_keyword_serp_diffs [s] = [100] := by
  have h1 : keywordScore [s] s = 100 := by
    unfold keywordScore keywordDiff
    have hf : ([s] : List (List String)).filter (fun y => decide (s ≠ y)) = [] := by
      simp
    rw [hf]
    norm_num [pyInt]
  rw [gksd_eq_map]
  simp [h1]

/-! The claims. -/

/-- Claim C1 (counterexample): the batch `[["a"], ["a"], ["b"]]` refutes the
claim that every index `j ≠ i` participates as a peer.  The code excludes
peers by value (`if x != y`), so the two value-equal `["a"]` sequences are
never compared with each other: the engine returns `[0, 0, 0]`, while the
index-based aggregation described by the spec returns `[50, 50, 0]`. -/
theorem c1_counterexample :
    get_keyword_serp_diffs [["a"], ["a"], ["b"]] ≠
      specScorePercentages [["a"], ["a"], ["b"]] := by
  have hL : get_keyword_serp_diffs [["a"], ["a"], ["b"]] = [0, 0, 0] := by
    rw [gksd_eq_map]
    simp only [List.map_cons, List.map_nil, kscore_a, kscore_b]
  have hlen : ([["a"], ["a"], ["b"]] : List (List String)).length = 3 := rfl
  have hrange : List.range 3 = [0, 1, 2] := rfl
  have hspec0 : (specScorePercentages [["a"], ["a"], ["b"]])[0]? = some 50 := by
    unfold specScorePercentages
    rw [hlen, hrange]
    simp only [List.map_cons, List.map_nil]
    have hf : (([0, 1, 2] : List Nat).filter (fun j => decide (j ≠ 0))) = [1, 2] := rfl
    rw [hf]
    have hg0 : ([["a"], ["a"], ["b"]] : List (List String)).getD 0 [] = ["a"] := rfl
    have hg1 : ([["a"], ["a"], ["b"]] : List (List String)).getD 1 [] = ["a"] := rfl
    have hg2 : ([["a"], ["a"], ["b"]] : List (List String)).getD 2 [] = ["b"] := rfl
    rw [hg0, hg1, hg2]
    simp only [List.map_cons, List.map_nil, List.getElem?_cons_zero, Option.some.injEq]
    norm_num [ratio_aa, ratio_ab, List.sum_cons, List.sum_nil, round2_half, pyInt]
  intro heq
  rw [hL] at heq
  have : ([0, 0, 0] : List Int)[0]? = some 50 := by rw [heq]; exact hspec0
  simp at this

/-- Claim C1 (amended): for every batch and every index `i`, the emitted
score at index `i` is `keywordScore batch sequences[i]`, whose peer list is
`batch.filter (fun y => sequences[i] ≠ y)`: exclusion is by value, not by
index.  Value-equal duplicates of a sequence are excluded from its peer set
and contribute no ratio; consequently adding another copy of a sequence to
the batch leaves that sequence's score unchanged. -/
theorem c1_amended_peers_by_value (batch : List (List String)) (i : Nat) :
    (get_keyword_serp_diffs batch)[i]? = (batch[i]?).map (fun x => keywordScore batch x) ∧
      ∀ x : List String, keywordScore (x :: batch) x = keywordScore batch x :=
  ⟨gksd_getElem? batch i, fun x => keywordScore_cons_self batch x⟩

set_option maxRecDepth 100000 in
/-- Claim C2 (counterexample): for `a = ["q","p","p"]` against a sequence of
199 copies of `"p"` followed by `"q"` (length 200), difflib's autojunk
heuristic marks `"p"` as popular and bans it from anchoring a match, so
`ratio` returns `2/203`, while the spec's greedy longest-common-block
algorithm matches the block `["p","p"]` and yields `4/203`. -/
theorem c2_counterexample :
    ratio (["q", "p", "p"] : List String) (List.replicate 199 "p" ++ ["q"]) ≠
      specRatio (["q", "p", "p"] : List String) (List.replicate 199 "p" ++ ["q"]) := by
  have hm : matchTotal (["q", "p", "p"] : List String) (List.replicate 199 "p" ++ ["q"])
      (fun y => (bpopular (List.replicate 199 "p" ++ (["q"] : List String))).contains y) = 1 :=
    rfl
  have hs : specMatchTotal (["q", "p", "p"] : List String)
      (List.replicate 199 "p" ++ ["q"]) = 2 := rfl
  have hla : (["q", "p", "p"] : List String).length = 3 := rfl
  have hlb : (List.replicate 199 "p" ++ (["q"] : List String)).length = 200 := rfl
  unfold ratio specRatio
  rw [hla, hlb, hm, hs, if_neg (by norm_num), if_neg (by norm_num), if_neg (by norm_num)]
  norm_num

/-- Claim C2 (amended): whenever the second sequence has fewer than 200
elements - in particular for every SERP produced by the application, whose
result counts are at most 100 - the autojunk heuristic is inert and the
pairwise similarity is exactly `2 * matched_length / (len a + len b)` for
the greedy recursive longest-common-block algorithm over whole tokens.  For
`len b ≥ 200`, tokens occurring more than `len b / 100 + 1` times in `b`
cannot anchor a match and the two values may differ. -/
theorem c2_amended_ratio_eq_spec (a b : List String) (h : b.length < 200) :
    ratio a b = specRatio a b := by
  unfold ratio specRatio
  by_cases hab : a.length + b.length = 0
  · rw [if_pos hab, if_pos ⟨by omega, by omega⟩]
  · rw [if_neg hab]
    by_cases ha : a.length = 0
    · rw [if_neg (by omega : ¬(a.length = 0 ∧ b.length = 0)), if_pos (Or.inl ha)]
      have ha' : a = [] := List.length_eq_zero.mp ha
      subst ha'
      rw [matchTotal_left_nil]
      simp
    · by_cases hb : b.length = 0
      · rw [if_neg (by tauto), if_pos (Or.inr hb)]
        have hb' : b = [] := List.length_eq_zero.mp hb
        subst hb'
        rw [matchTotal_right_nil]
        simp
      · rw [if_neg (by tauto), if_neg (by tauto)]
        rw [matchTotal_eq_spec h]

/-- Claim C2 (witness): the amended equivalence at a concrete short input. -/
theorem c2_amended_ratio_eq_spec_witness :
    (["b"] : List String).length < 200 ∧
      ratio (["a"] : List String) ["b"] = specRatio (["a"] : List String) ["b"] :=
  ⟨by decide, c2_amended_ratio_eq_spec ["a"] ["b"] (by decide)⟩

/-- Claim C3: for every keyword whose peer list (sequences value-unequal to
its own) is non-empty, the emitted percentage is exactly
`floor(round2(mean of the pairwise ratios) * 100)`: the mean is rounded to
two decimal places first and then truncated after multiplication by 100
(truncation and floor agree here since the value is non-negative). -/
theorem c3_floor_of_rounded_mean (batch : List (List String)) (i : Nat) (x : List String)
    (hx : batch[i]? = some x)
    (hp : batch.filter (fun y => decide (x ≠ y)) ≠ []) :
    (get_keyword_serp_diffs batch)[i]? =
      some ⌊round2
        (((batch.filter (fun y => decide (x ≠ y))).map (fun y => ratio x y)).sum /
          (((batch.filter (fun y => decide (x ≠ y))).map (fun y => ratio x y)).length : ℚ)) *
        100⌋ := by
  rw [gksd_getElem?, hx, Option.map_some']
  congr 1
  unfold keywordScore keywordDiff
  have h0 : ((batch.filter (fun y => decide (x ≠ y))).map (fun y => ratio x y)).length ≠ 0 := by
    rw [List.length_map]
    simpa [List.length_eq_zero] using hp
  rw [if_neg h0]
  have hsum0 : 0 ≤ ((batch.filter (fun y => decide (x ≠ y))).map (fun y => ratio x y)).sum := by
    have hb : ∀ q ∈ (batch.filter (fun y => decide (x ≠ y))).map (fun y => ratio x y),
        0 ≤ q ∧ q ≤ 1 := by
      intro q hq
      rcases List.mem_map.mp hq with ⟨y, _, rfl⟩
      exact ⟨ratio_nonneg x y, ratio_le_one x y⟩
    exact (sum_bounds _ hb).1
  have hm0 : 0 ≤ ((batch.filter (fun y => decide (x ≠ y))).map (fun y => ratio x y)).sum /
      (((batch.filter (fun y => decide (x ≠ y))).map (fun y => ratio x y)).length : ℚ) :=
    div_nonneg hsum0 (by positivity)
  have hr0 : 0 ≤ round2
      (((batch.filter (fun y => decide (x ≠ y))).map (fun y => ratio x y)).sum /
        (((batch.filter (fun y => decide (x ≠ y))).map (fun y => ratio x y)).length : ℚ)) :=
    round2_nonneg hm0
  exact pyInt_eq_floor (by positivity)

/-- Claim C3 (witness): the formula at a concrete batch with a non-empty
peer list. -/
theorem c3_floor_of_rounded_mean_witness :
    ([["a"], ["b"]] : List (List String))[0]? = some ["a"] ∧
      ([["a"], ["b"]] : List (List String)).filter
        (fun y => decide ((["a"] : List String) ≠ y)) ≠ [] ∧
      (get_keyword_serp_diffs [["a"], ["b"]])[0]? =
        some ⌊round2
          (((([["a"], ["b"]] : List (List String)).filter
              (fun y => decide ((["a"] : List String) ≠ y))).map
                (fun y => ratio (["a"] : List String) y)).sum /
            (((([["a"], ["b"]] : List (List String)).filter
              (fun y => decide ((["a"] : List String) ≠ y))).map
                (fun y => ratio (["a"] : List String) y)).length : ℚ)) * 100⌋ :=
  ⟨rfl, by decide, c3_floor_of_rounded_mean [["a"], ["b"]] 0 ["a"] rfl (by decide)⟩

/-- Claim C4: a batch with exactly one sequence scores `[100]` regardless of
the sequence's content: its peer list is empty (the sequence is value-equal
to itself), the `sum(diffs)/len(diffs)` division raises, and the `except`
branch substitutes the ratio 1, emitted as `int(1*100) = 100`. -/
theorem c4_singleton_batch (s : List String) : get_keyword_serp_diffs [s] = [100] :=
  gksd_singleton s

/-- Claim C5: the engine emits exactly one score per input sequence, in input
order: the output is the elementwise image of the input batch under
`keywordScore`, so lengths agree and the score at each position is computed
from the sequence at that position; no sorting or reordering occurs. -/
theorem c5_scores_length_and_order (batch : List (List String)) :
    (get_keyword_serp_diffs batch).length = batch.length ∧
      get_keyword_serp_diffs batch = batch.map (fun x => keywordScore batch x) := by
  refine ⟨?_, gksd_eq_map batch⟩
  rw [gksd_eq_map, List.length_map]

/-- Claim C6 (counterexample): `ratio` is not symmetric.  For
`a = ["q","w","z","e","r"]` and `b = ["e","r","x","q","w","y","z"]` the
greedy tie-break (earliest block in the first argument) anchors on
`["q","w"]` and later also matches `["z"]`, giving `ratio a b = 1/2`, while
in the swapped order it anchors on `["e","r"]` and nothing else fits,
giving `ratio b a = 1/3`. -/
theorem c6_counterexample :
    ratio (["q", "w", "z", "e", "r"] : List String) ["e", "r", "x", "q", "w", "y", "z"] ≠
      ratio (["e", "r", "x", "q", "w", "y", "z"] : List String) ["q", "w", "z", "e", "r"] := by
  have h1 : matchTotal (["q", "w", "z", "e", "r"] : List String)
      ["e", "r", "x", "q", "w", "y", "z"]
      (fun y => (bpopular (["e", "r", "x", "q", "w", "y", "z"] : List String)).contains y) = 3 :=
    rfl
  have h2 : matchTotal (["e", "r", "x", "q", "w", "y", "z"] : List String)
      ["q", "w", "z", "e", "r"]
      (fun y => (bpopular (["q", "w", "z", "e", "r"] : List String)).contains y) = 2 := rfl
  have hla : (["q", "w", "z", "e", "r"] : List String).length = 5 := rfl
  have hlb : (["e", "r", "x", "q", "w", "y", "z"] : List String).length = 7 := rfl
  unfold ratio
  rw [hla, hlb, h1, h2, if_neg (by norm_num), if_neg (by norm_num)]
  norm_num

/-- Claim C6 (amended): symmetry does hold degenerately - when both
sequences have at most one token (for empty sequences, and for singletons
whether the tokens agree or not) - but the greedy block selection is
order-dependent in general and `ratio a b` can differ from `ratio b a`. -/
theorem c6_amended_symm_short (a b : List String) (ha : a.length ≤ 1) (hb : b.length ≤ 1) :
    ratio a b = ratio b a := by
  cases a with
  | nil =>
    cases b with
    | nil => rfl
    | cons y ys =>
      have hys : ys = [] := by
        simp only [List.length_cons] at hb
        exact List.length_eq_zero.mp (by omega)
      subst hys
      rw [ratio_nil_left (by simp), ratio_nil_right (by simp)]
  | cons x xs =>
    have hxs : xs = [] := by
      simp only [List.length_cons] at ha
      exact List.length_eq_zero.mp (by omega)
    subst hxs
    cases b with
    | nil => rw [ratio_nil_right (by simp), ratio_nil_left (by simp)]
    | cons y ys =>
      have hys : ys = [] := by
        simp only [List.length_cons] at hb
        exact List.length_eq_zero.mp (by omega)
      subst hys
      by_cases hxy : x = y
      · subst hxy
        rfl
      · have h1 : ratio [x] [y] = 0 := by
          apply ratio_disjoint
          · intro z hz
            simp only [List.mem_singleton] at hz
            subst hz
            simp [hxy]
          · simp
        have h2 : ratio [y] [x] = 0 := by
          apply ratio_disjoint
          · intro z hz
            simp only [List.mem_singleton] at hz
            subst hz
            simp [Ne.symm hxy]
          · simp
        rw [h1, h2]

/-- Claim C6 (witness): the amended symmetry at concrete singletons. -/
theorem c6_amended_symm_short_witness :
    (["u"] : List String).length ≤ 1 ∧ (["v"] : List String).length ≤ 1 ∧
      ratio (["u"] : List String) ["v"] = ratio (["v"] : List String) ["u"] :=
  ⟨by decide, by decide, c6_amended_symm_short ["u"] ["v"] (by decide) (by decide)⟩

/-- Claim C7: `ratio` of two empty sequences is 1 (difflib's
`_calculate_ratio` returns 1.0 when the combined length is 0), and the ratio
of an empty sequence against a non-empty one, in either order, is 0. -/
theorem c7_empty_cases :
    ratio ([] : List String) ([] : List String) = 1 ∧
      ∀ a : List String, a ≠ [] → ratio a [] = 0 ∧ ratio ([] : List String) a = 0 := by
  refine ⟨rfl, ?_⟩
  intro a ha
  exact ⟨ratio_nil_right ha, ratio_nil_left ha⟩

/-- Claim C7 (witness): the empty-versus-non-empty cases at `["x"]`. -/
theorem c7_empty_cases_witness :
    ratio (["x"] : List String) [] = 0 ∧ ratio ([] : List String) ["x"] = 0 :=
  c7_empty_cases.2 ["x"] (by decide)

/-- Claim C8: every score the engine emits is an integer between 0 and 100:
each pairwise ratio lies in `[0, 1]`, hence so does the mean and its
two-decimal rounding, and the empty-peer fallback 1 maps to 100. -/
theorem c8_scores_in_range (batch : List (List String)) (v : Int)
    (hv : v ∈ get_keyword_serp_diffs batch) : 0 ≤ v ∧ v ≤ 100 := by
  rw [gksd_eq_map] at hv
  rcases List.mem_map.mp hv with ⟨x, _, rfl⟩
  exact keywordScore_bounds batch x

/-- Claim C8 (witness): the bound at a concrete emitted score. -/
theorem c8_scores_in_range_witness :
    (100 : Int) ∈ get_keyword_serp_diffs [["a"]] ∧ 0 ≤ (100 : Int) ∧ (100 : Int) ≤ 100 :=
  ⟨by rw [gksd_singleton]; simp,
    c8_scores_in_range [["a"]] 100 (by rw [gksd_singleton]; simp)⟩

/-- Claim C9: the scoring engine is deterministic - it is a pure function of
its argument, so equal input batches yield equal score lists. -/
theorem c9_deterministic (l1 l2 : List (List String)) (h : l1 = l2) :
    get_keyword_serp_diffs l1 = get_keyword_serp_diffs l2 := by
  rw [h]

/-- Claim C9 (witness): determinism at a concrete batch. -/
theorem c9_deterministic_witness :
    get_keyword_serp_diffs [["a"]] = get_keyword_serp_diffs [["a"]] :=
  c9_deterministic [["a"]] [["a"]] rfl

/-- Claim C10: the empty batch produces the empty score list - the loop body
never runs and the comprehension maps the empty list. -/
theorem c10_empty_batch : get_keyword_serp_diffs ([] : List (List String)) = [] := rfl

end SerpApp
